import Mathlib

/-! Shallow embedding of the A/B-testing statistical engine of this
repository (`src/analytics/ab_testing/`): multiple-comparison corrections,
sequential-analysis boundaries, power calculations, frequentist tests and
Bayesian posterior summaries, together with proofs of the specification
claims about them.  Exact rational arithmetic stands in for Python floats;
real numbers stand in for the `scipy` special functions. -/

/-! ## Decimal rounding

Python `round(x, k)` rounds to the nearest multiple of `10⁻ᵏ`, ties going
to the even multiple.  We model it generically over a linear ordered field
equipped with a floor, so the same definition serves ℚ (corrections,
Bayesian engine) and ℝ (sequential/power/frequentist engines). -/

def roundHalfEven {K : Type} [LinearOrderedField K] [FloorRing K] (x : K) : ℤ :=
  if x - ⌊x⌋ < 1 / 2 then ⌊x⌋
  else if 1 / 2 < x - ⌊x⌋ then ⌊x⌋ + 1
  else if ⌊x⌋ % 2 = 0 then ⌊x⌋ else ⌊x⌋ + 1

/-- Python `round(x, 6)`. -/
def round6 {K : Type} [LinearOrderedField K] [FloorRing K] (x : K) : K :=
  (roundHalfEven (x * 1000000) : K) / 1000000

/-- Python `round(x, 4)`. -/
def round4 {K : Type} [LinearOrderedField K] [FloorRing K] (x : K) : K :=
  (roundHalfEven (x * 10000) : K) / 10000

theorem roundHalfEven_mono {K : Type} [LinearOrderedField K] [FloorRing K]
    {x y : K} (h : x ≤ y) : roundHalfEven x ≤ roundHalfEven y := by
  have hf := Int.floor_mono h
  rcases eq_or_lt_of_le hf with he | hl
  · have hxy : x - (⌊y⌋ : K) ≤ y - (⌊y⌋ : K) := by linarith
    unfold roundHalfEven
    rw [he]
    split_ifs <;> first | omega | linarith
  · have h1 : roundHalfEven x ≤ ⌊x⌋ + 1 := by
      unfold roundHalfEven; split_ifs <;> omega
    have h2 : (⌊y⌋ : ℤ) ≤ roundHalfEven y := by
      unfold roundHalfEven; split_ifs <;> omega
    omega

theorem roundHalfEven_intCast {K : Type} [LinearOrderedField K] [FloorRing K]
    (n : ℤ) : roundHalfEven (n : K) = n := by
  unfold roundHalfEven
  rw [Int.floor_intCast]
  simp only [sub_self]
  norm_num

theorem round6_mono {K : Type} [LinearOrderedField K] [FloorRing K]
    {x y : K} (h : x ≤ y) : round6 x ≤ round6 y := by
  unfold round6
  have hm : x * 1000000 ≤ y * 1000000 :=
    mul_le_mul_of_nonneg_right h (by norm_num)
  have := roundHalfEven_mono (K := K) hm
  have hc : ((roundHalfEven (x * 1000000) : ℤ) : K) ≤
      ((roundHalfEven (y * 1000000) : ℤ) : K) := Int.cast_le.mpr this
  exact div_le_div_of_nonneg_right hc (by norm_num) |>.trans_eq rfl

theorem round6_one {K : Type} [LinearOrderedField K] [FloorRing K] :
    round6 (1 : K) = 1 := by
  unfold round6
  have : ((1 : K) * 1000000) = ((1000000 : ℤ) : K) := by norm_num
  rw [this, roundHalfEven_intCast]
  norm_num

theorem round6_le_one {K : Type} [LinearOrderedField K] [FloorRing K]
    {x : K} (h : x ≤ 1) : round6 x ≤ 1 := by
  have := round6_mono (K := K) h
  rwa [round6_one] at this

/-! ## Multiple-comparison corrections (`corrections.py`)

Each correction returns one record per input p-value, in the input order;
`original_p` and `corrected_p` are rounded to 6 decimals as in the source,
`significant` compares the unrounded corrected value with `alpha`.

`np.argsort` is modelled by sorting index/value pairs by value
(`List.insertionSort`); the properties proved below do not depend on how
ties between equal p-values are broken. -/

structure CorrRec where
  original_p : ℚ
  corrected_p : ℚ
  significant : Bool
  deriving DecidableEq, Repr

/-- Pair every element with its position, starting at `k`. -/
def withIdx : ℕ → List ℚ → List (ℕ × ℚ)
  | _, [] => []
  | k, p :: ps => (k, p) :: withIdx (k + 1) ps

/-- Ordering of index/value pairs by p-value (the `np.argsort` key). -/
def byVal (a b : ℕ × ℚ) : Prop := a.2 ≤ b.2

instance : DecidableRel byVal := fun a b => inferInstanceAs (Decidable (a.2 ≤ b.2))

instance : IsTotal (ℕ × ℚ) byVal := ⟨fun a b => le_total a.2 b.2⟩

instance : IsTrans (ℕ × ℚ) byVal := ⟨fun _ _ _ => le_trans⟩

/-- Ordering of index/record pairs by original index (the scatter back to
input order at the end of `holm_bonferroni` / `benjamini_hochberg`). -/
def byIdx (a b : ℕ × CorrRec) : Prop := a.1 ≤ b.1

instance : DecidableRel byIdx := fun a b => inferInstanceAs (Decidable (a.1 ≤ b.1))

/-- Forward running maximum with seed `m` (tail of the Holm monotonicity
pass `corrected[i] = max(corrected[i], corrected[i-1])`). -/
def scanMax (m : ℚ) : List ℚ → List ℚ
  | [] => []
  | x :: xs => max m x :: scanMax (max m x) xs

/-- Holm forward pass: the first entry is kept, every later entry becomes
the running maximum so far. -/
def monoUp : List ℚ → List ℚ
  | [] => []
  | x :: xs => x :: scanMax x xs

/-- Benjamini-Hochberg backward pass
`corrected[i] = min(corrected[i], corrected[i+1])`, processed from the
end: every entry becomes the minimum of its suffix. -/
def monoDown : List ℚ → List ℚ
  | [] => []
  | x :: xs =>
    match monoDown xs with
    | [] => [x]
    | y :: ys => min x y :: y :: ys

/-- Raw Holm values `sorted_p[i] * (n - i)` along the sorted pairs,
`i` counting from `k`. -/
def holmRaw (n : ℕ) : ℕ → List (ℕ × ℚ) → List ℚ
  | _, [] => []
  | k, pr :: rest => pr.2 * ((n : ℚ) - (k : ℚ)) :: holmRaw n (k + 1) rest

/-- Raw Benjamini-Hochberg values `sorted_p[i] * n / (i + 1)` along the
sorted pairs, `i` counting from `k`. -/
def bhRaw (n : ℕ) : ℕ → List (ℕ × ℚ) → List ℚ
  | _, [] => []
  | k, pr :: rest => pr.2 * (n : ℚ) / ((k : ℚ) + 1) :: bhRaw n (k + 1) rest

/-- Build the per-rank records (still tagged with the original index). -/
def corrRecords (alpha : ℚ) (pairs : List (ℕ × ℚ)) (cs : List ℚ) :
    List (ℕ × CorrRec) :=
  List.zipWith
    (fun pr c =>
      (pr.1,
       { original_p := round6 pr.2
         corrected_p := round6 c
         significant := decide (c < alpha) }))
    pairs cs

/-- Map the per-rank records back to the original input order
(`results[orig_idx] = ...`). -/
def scatter (rs : List (ℕ × CorrRec)) : List CorrRec :=
  (List.insertionSort byIdx rs).map Prod.snd

/-- Bonferroni correction: `corrected = min(p * n, 1)`. -/
def bonferroni (p_values : List ℚ) (alpha : ℚ) : List CorrRec :=
  let n := p_values.length
  p_values.map fun p =>
    let corrected := min (p * (n : ℚ)) 1
    { original_p := round6 p
      corrected_p := round6 corrected
      significant := decide (corrected < alpha) }

/-- The `indices = np.argsort(p_values)` / `sorted_p = p_values[indices]`
step, keeping index and value together. -/
def sortedPairs (p_values : List ℚ) : List (ℕ × ℚ) :=
  List.insertionSort byVal (withIdx 0 p_values)

/-- Corrected values of Holm-Bonferroni in sorted order: multiply by
`(n - rank)`, forward monotonicity pass, cap at 1. -/
def holmCorrected (p_values : List ℚ) : List ℚ :=
  (monoUp (holmRaw p_values.length 0 (sortedPairs p_values))).map fun x => min x 1

/-- Corrected values of Benjamini-Hochberg in sorted order: multiply by
`n / (rank + 1)`, backward monotonicity pass, cap at 1. -/
def bhCorrected (p_values : List ℚ) : List ℚ :=
  (monoDown (bhRaw p_values.length 0 (sortedPairs p_values))).map fun x => min x 1

/-- Holm-Bonferroni step-down procedure. -/
def holm_bonferroni (p_values : List ℚ) (alpha : ℚ) : List CorrRec :=
  scatter (corrRecords alpha (sortedPairs p_values) (holmCorrected p_values))

/-- Benjamini-Hochberg FDR correction. -/
def benjamini_hochberg (p_values : List ℚ) (alpha : ℚ) : List CorrRec :=
  scatter (corrRecords alpha (sortedPairs p_values) (bhCorrected p_values))

/-- Python `str.lower()` restricted to the method names that occur here
(character-wise ASCII lowering). -/
def pyLower (s : String) : String := String.mk (s.data.map Char.toLower)

/-- Dispatch table of `apply_correction`: the message of the `ValueError`
raised on an unknown method (`\x27` is the single-quote character of the
Python list repr). -/
def unknownMethodMsg (method : String) : String :=
  "Unknown correction method: " ++ method ++
    ". Available: [\x27bonferroni\x27, \x27holm-bonferroni\x27, \x27holm\x27, \x27benjamini-hochberg\x27, \x27bh\x27, \x27fdr\x27]"

/-- Apply the specified correction method; raising `ValueError` is
modelled by `Except.error`. -/
def apply_correction (p_values : List ℚ) (method : String) (alpha : ℚ) :
    Except String (List CorrRec) :=
  let m := pyLower method
  if m = "bonferroni" then .ok (bonferroni p_values alpha)
  else if m = "holm-bonferroni" then .ok (holm_bonferroni p_values alpha)
  else if m = "holm" then .ok (holm_bonferroni p_values alpha)
  else if m = "benjamini-hochberg" then .ok (benjamini_hochberg p_values alpha)
  else if m = "bh" then .ok (benjamini_hochberg p_values alpha)
  else if m = "fdr" then .ok (benjamini_hochberg p_values alpha)
  else .error (unknownMethodMsg method)

/-! ## Helper lemmas about the list passes -/

theorem withIdx_length (k : ℕ) (ps : List ℚ) :
    (withIdx k ps).length = ps.length := by
  induction ps generalizing k with
  | nil => simp [withIdx]
  | cons p ps ih => simp [withIdx, ih]

theorem withIdx_snd_mem {k : ℕ} {ps : List ℚ} {pr : ℕ × ℚ}
    (h : pr ∈ withIdx k ps) : pr.2 ∈ ps := by
  induction ps generalizing k with
  | nil => simp [withIdx] at h
  | cons p ps ih =>
    simp only [withIdx, List.mem_cons] at h
    rcases h with h | h
    · subst h; simp
    · exact List.mem_cons_of_mem _ (ih h)

theorem scanMax_length (m : ℚ) (xs : List ℚ) :
    (scanMax m xs).length = xs.length := by
  induction xs generalizing m with
  | nil => simp [scanMax]
  | cons x xs ih => simp [scanMax, ih]

theorem monoUp_length (xs : List ℚ) : (monoUp xs).length = xs.length := by
  cases xs with
  | nil => simp [monoUp]
  | cons x xs => simp [monoUp, scanMax_length]

theorem scanMax_get_ge (m : ℚ) (xs : List ℚ) (i : ℕ)
    (h1 : i < xs.length) (h2 : i < (scanMax m xs).length) :
    xs.get ⟨i, h1⟩ ≤ (scanMax m xs).get ⟨i, h2⟩ := by
  induction xs generalizing m i with
  | nil => simp at h1
  | cons x xs ih =>
    cases i with
    | zero => exact le_max_right m x
    | succ i => exact ih (max m x) i (Nat.lt_of_succ_lt_succ h1) _

theorem scanMax_get_le (m B : ℚ) (xs : List ℚ) (i : ℕ)
    (h2 : i < (scanMax m xs).length) (hm : m ≤ B)
    (hxs : ∀ j (hj : j < xs.length), j ≤ i → xs.get ⟨j, hj⟩ ≤ B) :
    (scanMax m xs).get ⟨i, h2⟩ ≤ B := by
  induction xs generalizing m i with
  | nil => simp [scanMax] at h2
  | cons x xs ih =>
    have hx : x ≤ B := hxs 0 (by simp) (Nat.zero_le _)
    cases i with
    | zero => exact max_le hm hx
    | succ i =>
      exact ih (max m x) i _ (max_le hm hx)
        (fun j hj hle => hxs (j + 1) (by simpa using hj) (Nat.succ_le_succ hle))

theorem monoUp_get_ge (xs : List ℚ) (i : ℕ)
    (h1 : i < xs.length) (h2 : i < (monoUp xs).length) :
    xs.get ⟨i, h1⟩ ≤ (monoUp xs).get ⟨i, h2⟩ := by
  cases xs with
  | nil => simp at h1
  | cons x xs =>
    cases i with
    | zero => exact le_refl x
    | succ i => exact scanMax_get_ge x xs i (Nat.lt_of_succ_lt_succ h1) _

theorem monoUp_get_le (xs : List ℚ) (B : ℚ) (i : ℕ)
    (h2 : i < (monoUp xs).length)
    (hxs : ∀ j (hj : j < xs.length), j ≤ i → xs.get ⟨j, hj⟩ ≤ B) :
    (monoUp xs).get ⟨i, h2⟩ ≤ B := by
  cases xs with
  | nil => simp [monoUp] at h2
  | cons x xs =>
    have hx : x ≤ B := hxs 0 (by simp) (Nat.zero_le _)
    cases i with
    | zero => exact hx
    | succ i =>
      exact scanMax_get_le x B xs i _ hx
        (fun j hj hle => hxs (j + 1) (by simpa using hj) (Nat.succ_le_succ hle))

theorem monoDown_length (xs : List ℚ) : (monoDown xs).length = xs.length := by
  induction xs with
  | nil => simp [monoDown]
  | cons x xs ih =>
    cases hm : monoDown xs with
    | nil =>
      have h0 : xs.length = 0 := by rw [← ih, hm]; rfl
      have heq : monoDown (x :: xs) = [x] := by simp only [monoDown, hm]
      rw [heq]
      simp [h0]
    | cons y ys =>
      have heq : monoDown (x :: xs) = min x y :: y :: ys := by
        simp only [monoDown, hm]
      have h1 : (y :: ys).length = xs.length := by rw [← ih, hm]
      rw [heq]
      simp only [List.length_cons] at h1 ⊢
      omega

theorem monoDown_get_le (xs : List ℚ) (i : ℕ)
    (h1 : i < (monoDown xs).length) (h2 : i < xs.length) :
    (monoDown xs).get ⟨i, h1⟩ ≤ xs.get ⟨i, h2⟩ := by
  induction xs generalizing i with
  | nil => simp at h2
  | cons x xs ih =>
    cases hm : monoDown xs with
    | nil =>
      have h0 : xs.length = 0 := by rw [← monoDown_length xs, hm]; rfl
      have hxnil : xs = [] := List.length_eq_zero.mp h0
      subst hxnil
      have heq : monoDown (x :: ([] : List ℚ)) = [x] := by simp [monoDown]
      have hi : i = 0 := by
        have hx1 : i < 1 := by simpa using h2
        omega
      subst hi
      rw [List.get_of_eq heq ⟨0, h1⟩]
    | cons y ys =>
      have heq : monoDown (x :: xs) = min x y :: y :: ys := by
        simp only [monoDown, hm]
      cases i with
      | zero =>
        rw [List.get_of_eq heq ⟨0, h1⟩]
        exact min_le_left x y
      | succ i =>
        have h1i : i < (monoDown xs).length := by
          rw [monoDown_length]
          exact Nat.lt_of_succ_lt_succ h2
        have hrec := ih i h1i (Nat.lt_of_succ_lt_succ h2)
        rw [List.get_of_eq hm ⟨i, h1i⟩] at hrec
        rw [List.get_of_eq heq ⟨i + 1, h1⟩]
        exact hrec

theorem monoDown_get_ge (xs : List ℚ) (B : ℚ) (i : ℕ)
    (h1 : i < (monoDown xs).length)
    (hxs : ∀ j (hj : j < xs.length), i ≤ j → B ≤ xs.get ⟨j, hj⟩) :
    B ≤ (monoDown xs).get ⟨i, h1⟩ := by
  induction xs generalizing i with
  | nil => simp [monoDown] at h1
  | cons x xs ih =>
    cases hm : monoDown xs with
    | nil =>
      have h0 : xs.length = 0 := by rw [← monoDown_length xs, hm]; rfl
      have hxnil : xs = [] := List.length_eq_zero.mp h0
      subst hxnil
      have heq : monoDown (x :: ([] : List ℚ)) = [x] := by simp [monoDown]
      have hi : i = 0 := by
        have hlen := monoDown_length (x :: ([] : List ℚ))
        simp at hlen
        omega
      subst hi
      rw [List.get_of_eq heq ⟨0, h1⟩]
      exact hxs 0 (by simp) (Nat.le_refl 0)
    | cons y ys =>
      have heq : monoDown (x :: xs) = min x y :: y :: ys := by
        simp only [monoDown, hm]
      cases i with
      | zero =>
        have hbx : B ≤ x := hxs 0 (by simp) (Nat.zero_le _)
        have hby : B ≤ y := by
          have h0 : 0 < (monoDown xs).length := by rw [hm]; simp
          have hrec := ih 0 h0
            (fun j hj _ => hxs (j + 1) (by simpa using hj) (Nat.zero_le _))
          rw [List.get_of_eq hm ⟨0, h0⟩] at hrec
          exact hrec
        rw [List.get_of_eq heq ⟨0, h1⟩]
        exact le_min hbx hby
      | succ i =>
        have h1i : i < (monoDown xs).length := by
          have hlen := monoDown_length (x :: xs)
          rw [monoDown_length]
          simp only [List.length_cons] at hlen
          omega
        have hrec := ih i h1i
          (fun j hj hle => hxs (j + 1) (by simpa using hj) (Nat.succ_le_succ hle))
        rw [List.get_of_eq hm ⟨i, h1i⟩] at hrec
        rw [List.get_of_eq heq ⟨i + 1, h1⟩]
        exact hrec

theorem holmRaw_length (n k : ℕ) (l : List (ℕ × ℚ)) :
    (holmRaw n k l).length = l.length := by
  induction l generalizing k with
  | nil => simp [holmRaw]
  | cons pr rest ih => simp [holmRaw, ih]

theorem holmRaw_get (n k : ℕ) (l : List (ℕ × ℚ)) (i : ℕ)
    (h1 : i < (holmRaw n k l).length) (h2 : i < l.length) :
    (holmRaw n k l).get ⟨i, h1⟩ =
      (l.get ⟨i, h2⟩).2 * ((n : ℚ) - ((k + i : ℕ) : ℚ)) := by
  induction l generalizing k i with
  | nil => simp at h2
  | cons pr rest ih =>
    cases i with
    | zero => simp [holmRaw]
    | succ i =>
      have h1x : i < (holmRaw n (k + 1) rest).length := by
        rw [holmRaw_length]
        exact Nat.lt_of_succ_lt_succ h2
      have ihx := ih (k + 1) i h1x (Nat.lt_of_succ_lt_succ h2)
      simp only [holmRaw, List.get_cons_succ]
      rw [ihx, show k + 1 + i = k + (i + 1) by omega]

theorem bhRaw_length (n k : ℕ) (l : List (ℕ × ℚ)) :
    (bhRaw n k l).length = l.length := by
  induction l generalizing k with
  | nil => simp [bhRaw]
  | cons pr rest ih => simp [bhRaw, ih]

theorem bhRaw_get (n k : ℕ) (l : List (ℕ × ℚ)) (i : ℕ)
    (h1 : i < (bhRaw n k l).length) (h2 : i < l.length) :
    (bhRaw n k l).get ⟨i, h1⟩ =
      (l.get ⟨i, h2⟩).2 * (n : ℚ) / (((k + i : ℕ) : ℚ) + 1) := by
  induction l generalizing k i with
  | nil => simp at h2
  | cons pr rest ih =>
    cases i with
    | zero => simp [bhRaw]
    | succ i =>
      have h1x : i < (bhRaw n (k + 1) rest).length := by
        rw [bhRaw_length]
        exact Nat.lt_of_succ_lt_succ h2
      have ihx := ih (k + 1) i h1x (Nat.lt_of_succ_lt_succ h2)
      simp only [bhRaw, List.get_cons_succ]
      rw [ihx, show k + 1 + i = k + (i + 1) by omega]

theorem mem_zipWith_get {α β γ : Type} (f : α → β → γ) (l1 : List α)
    (l2 : List β) {c : γ} (h : c ∈ List.zipWith f l1 l2) :
    ∃ i, ∃ h1 : i < l1.length, ∃ h2 : i < l2.length,
      c = f (l1.get ⟨i, h1⟩) (l2.get ⟨i, h2⟩) := by
  induction l1 generalizing l2 with
  | nil => simp at h
  | cons x xs ih =>
    cases l2 with
    | nil => simp at h
    | cons y ys =>
      simp only [List.zipWith_cons_cons, List.mem_cons] at h
      rcases h with h | h
      · exact ⟨0, by simp, by simp, h⟩
      · obtain ⟨i, h1, h2, he⟩ := ih ys h
        exact ⟨i + 1, by simpa using h1, by simpa using h2, he⟩

theorem countP_le_of_get {α β : Type} (p : α → Bool) (q : β → Bool) :
    ∀ (xs : List α) (ys : List β), xs.length = ys.length →
      (∀ i (h1 : i < xs.length) (h2 : i < ys.length),
        p (xs.get ⟨i, h1⟩) = true → q (ys.get ⟨i, h2⟩) = true) →
      xs.countP p ≤ ys.countP q := by
  intro xs
  induction xs with
  | nil => intro ys _ _; simp
  | cons x xs ih =>
    intro ys hlen himp
    cases ys with
    | nil => simp at hlen
    | cons y ys =>
      rw [List.countP_cons, List.countP_cons]
      have hx := ih ys (by simpa using hlen)
        (fun i h1 h2 hp => himp (i + 1) (by simpa using h1) (by simpa using h2) hp)
      by_cases hp : p x = true
      · have hq : q y = true := himp 0 (by simp) (by simp) hp
        simp only [hp, hq, if_true]
        exact Nat.add_le_add hx (le_refl 1)
      · have hpx : p x = false := by simpa using hp
        simp only [hpx, Bool.false_eq_true, if_false, Nat.add_zero]
        exact le_trans hx (Nat.le_add_right _ _)

theorem countP_withIdx (q : ℚ → Bool) (k : ℕ) (ps : List ℚ) :
    (withIdx k ps).countP (fun pr => q pr.2) = ps.countP q := by
  induction ps generalizing k with
  | nil => simp [withIdx]
  | cons p ps ih => simp [withIdx, List.countP_cons, ih]

/-! ## Structural facts about the correction pipeline -/

theorem sortedPairs_length (ps : List ℚ) : (sortedPairs ps).length = ps.length := by
  unfold sortedPairs
  rw [(List.perm_insertionSort byVal (withIdx 0 ps)).length_eq, withIdx_length]

theorem sortedPairs_snd_mem {ps : List ℚ} {pr : ℕ × ℚ}
    (h : pr ∈ sortedPairs ps) : pr.2 ∈ ps :=
  withIdx_snd_mem ((List.perm_insertionSort byVal (withIdx 0 ps)).subset h)

theorem sortedPairs_pairwise (ps : List ℚ) :
    List.Pairwise byVal (sortedPairs ps) :=
  List.sorted_insertionSort byVal (withIdx 0 ps)

theorem holmCorrected_length (ps : List ℚ) :
    (holmCorrected ps).length = ps.length := by
  unfold holmCorrected
  rw [List.length_map, monoUp_length, holmRaw_length, sortedPairs_length]

theorem bhCorrected_length (ps : List ℚ) :
    (bhCorrected ps).length = ps.length := by
  unfold bhCorrected
  rw [List.length_map, monoDown_length, bhRaw_length, sortedPairs_length]

theorem get_map_min_one (l : List ℚ) (i : ℕ)
    (h1 : i < (l.map fun x => min x 1).length) (h2 : i < l.length) :
    (l.map fun x => min x 1).get ⟨i, h1⟩ = min (l.get ⟨i, h2⟩) 1 := by
  simp [List.get_eq_getElem, List.getElem_map]

theorem mem_scatter {rs : List (ℕ × CorrRec)} {r : CorrRec}
    (h : r ∈ scatter rs) : ∃ pr ∈ rs, r = pr.2 := by
  unfold scatter at h
  obtain ⟨pr, hpr, he⟩ := List.mem_map.mp h
  exact ⟨pr, (List.perm_insertionSort byIdx rs).subset hpr, he.symm⟩

theorem countP_scatter (p : CorrRec → Bool) (rs : List (ℕ × CorrRec)) :
    (scatter rs).countP p = rs.countP fun pr => p pr.2 := by
  unfold scatter
  rw [List.countP_map]
  exact (List.perm_insertionSort byIdx rs).countP_eq _

theorem mem_corr_output {sorted : List (ℕ × ℚ)} {cs : List ℚ} {alpha : ℚ}
    {r : CorrRec} (h : r ∈ scatter (corrRecords alpha sorted cs)) :
    ∃ i, ∃ h1 : i < sorted.length, ∃ h2 : i < cs.length,
      r = { original_p := round6 (sorted.get ⟨i, h1⟩).2
            corrected_p := round6 (cs.get ⟨i, h2⟩)
            significant := decide (cs.get ⟨i, h2⟩ < alpha) } := by
  obtain ⟨pr, hpr, he⟩ := mem_scatter h
  obtain ⟨i, h1, h2, hpr2⟩ := mem_zipWith_get _ _ _ hpr
  refine ⟨i, h1, h2, ?_⟩
  rw [he, hpr2]

/-! ## Value bounds for the corrected sequences -/

theorem holmCorrected_ge (ps : List ℚ)
    (hps : ∀ p ∈ ps, 0 ≤ p ∧ p ≤ 1) (i : ℕ)
    (h1 : i < (sortedPairs ps).length) (h2 : i < (holmCorrected ps).length) :
    ((sortedPairs ps).get ⟨i, h1⟩).2 ≤ (holmCorrected ps).get ⟨i, h2⟩ := by
  set v := ((sortedPairs ps).get ⟨i, h1⟩).2 with hv
  have hvmem : v ∈ ps := sortedPairs_snd_mem (List.get_mem _ _ _)
  obtain ⟨hv0, hv1⟩ := hps v hvmem
  have hmu : i < (monoUp (holmRaw ps.length 0 (sortedPairs ps))).length := by
    rw [monoUp_length, holmRaw_length]
    exact h1
  have hraw : i < (holmRaw ps.length 0 (sortedPairs ps)).length := by
    rw [holmRaw_length]
    exact h1
  have hmap := get_map_min_one (monoUp (holmRaw ps.length 0 (sortedPairs ps))) i
    (by unfold holmCorrected at h2; exact h2) hmu
  have hc : (holmCorrected ps).get ⟨i, h2⟩ =
      min ((monoUp (holmRaw ps.length 0 (sortedPairs ps))).get ⟨i, hmu⟩) 1 := hmap
  rw [hc]
  refine le_min ?_ hv1
  have hge := monoUp_get_ge (holmRaw ps.length 0 (sortedPairs ps)) i hraw hmu
  refine le_trans ?_ hge
  rw [holmRaw_get ps.length 0 (sortedPairs ps) i hraw h1]
  have hilt : i < ps.length := by rw [← sortedPairs_length ps]; exact h1
  have hcast : ((0 + i : ℕ) : ℚ) + 1 ≤ (ps.length : ℚ) := by
    have : (0 + i : ℕ) + 1 ≤ ps.length := by omega
    exact_mod_cast this
  have hfac : (1 : ℚ) ≤ (ps.length : ℚ) - ((0 + i : ℕ) : ℚ) := by linarith
  calc v = v * 1 := (mul_one v).symm
    _ ≤ v * ((ps.length : ℚ) - ((0 + i : ℕ) : ℚ)) :=
        mul_le_mul_of_nonneg_left hfac hv0

theorem holmCorrected_le (ps : List ℚ)
    (hps : ∀ p ∈ ps, 0 ≤ p ∧ p ≤ 1) (i : ℕ)
    (h1 : i < (sortedPairs ps).length) (h2 : i < (holmCorrected ps).length) :
    (holmCorrected ps).get ⟨i, h2⟩ ≤
      min (((sortedPairs ps).get ⟨i, h1⟩).2 * (ps.length : ℚ)) 1 := by
  have hmu : i < (monoUp (holmRaw ps.length 0 (sortedPairs ps))).length := by
    rw [monoUp_length, holmRaw_length]
    exact h1
  have hc : (holmCorrected ps).get ⟨i, h2⟩ =
      min ((monoUp (holmRaw ps.length 0 (sortedPairs ps))).get ⟨i, hmu⟩) 1 :=
    get_map_min_one _ i (by unfold holmCorrected at h2; exact h2) hmu
  rw [hc]
  have hpair := List.pairwise_iff_get.mp (sortedPairs_pairwise ps)
  have hbound : (monoUp (holmRaw ps.length 0 (sortedPairs ps))).get ⟨i, hmu⟩ ≤
      ((sortedPairs ps).get ⟨i, h1⟩).2 * (ps.length : ℚ) := by
    apply monoUp_get_le
    intro j hj hji
    have hjs : j < (sortedPairs ps).length := by
      rw [← holmRaw_length ps.length 0 (sortedPairs ps)]
      exact hj
    rw [holmRaw_get ps.length 0 (sortedPairs ps) j hj hjs]
    have hwmem : ((sortedPairs ps).get ⟨j, hjs⟩).2 ∈ ps :=
      sortedPairs_snd_mem (List.get_mem _ _ _)
    obtain ⟨hw0, _⟩ := hps _ hwmem
    have hwv : ((sortedPairs ps).get ⟨j, hjs⟩).2 ≤
        ((sortedPairs ps).get ⟨i, h1⟩).2 := by
      rcases Nat.lt_or_ge j i with hlt | hge
      · exact hpair ⟨j, hjs⟩ ⟨i, h1⟩ hlt
      · have hij : i = j := Nat.le_antisymm hge hji
        subst hij
        exact le_refl _
    have hsub : (ps.length : ℚ) - ((0 + j : ℕ) : ℚ) ≤ (ps.length : ℚ) := by
      have hj0 : (0 : ℚ) ≤ ((0 + j : ℕ) : ℚ) := by positivity
      linarith
    calc ((sortedPairs ps).get ⟨j, hjs⟩).2 * ((ps.length : ℚ) - ((0 + j : ℕ) : ℚ))
        ≤ ((sortedPairs ps).get ⟨j, hjs⟩).2 * (ps.length : ℚ) :=
          mul_le_mul_of_nonneg_left hsub hw0
      _ ≤ ((sortedPairs ps).get ⟨i, h1⟩).2 * (ps.length : ℚ) :=
          mul_le_mul_of_nonneg_right hwv (by positivity)
  exact min_le_min hbound (le_refl 1)

theorem bhCorrected_ge (ps : List ℚ)
    (hps : ∀ p ∈ ps, 0 ≤ p ∧ p ≤ 1) (i : ℕ)
    (h1 : i < (sortedPairs ps).length) (h2 : i < (bhCorrected ps).length) :
    ((sortedPairs ps).get ⟨i, h1⟩).2 ≤ (bhCorrected ps).get ⟨i, h2⟩ := by
  have hvmem : ((sortedPairs ps).get ⟨i, h1⟩).2 ∈ ps :=
    sortedPairs_snd_mem (List.get_mem _ _ _)
  obtain ⟨hv0, hv1⟩ := hps _ hvmem
  have hmd : i < (monoDown (bhRaw ps.length 0 (sortedPairs ps))).length := by
    rw [monoDown_length, bhRaw_length]
    exact h1
  have hc : (bhCorrected ps).get ⟨i, h2⟩ =
      min ((monoDown (bhRaw ps.length 0 (sortedPairs ps))).get ⟨i, hmd⟩) 1 :=
    get_map_min_one _ i (by unfold bhCorrected at h2; exact h2) hmd
  rw [hc]
  refine le_min ?_ hv1
  have hpair := List.pairwise_iff_get.mp (sortedPairs_pairwise ps)
  apply monoDown_get_ge
  intro j hj hij
  have hjs : j < (sortedPairs ps).length := by
    rw [← bhRaw_length ps.length 0 (sortedPairs ps)]
    exact hj
  rw [bhRaw_get ps.length 0 (sortedPairs ps) j hj hjs]
  have hwmem : ((sortedPairs ps).get ⟨j, hjs⟩).2 ∈ ps :=
    sortedPairs_snd_mem (List.get_mem _ _ _)
  obtain ⟨hw0, _⟩ := hps _ hwmem
  have hwv : ((sortedPairs ps).get ⟨i, h1⟩).2 ≤
      ((sortedPairs ps).get ⟨j, hjs⟩).2 := by
    rcases Nat.lt_or_ge i j with hlt | hge
    · exact hpair ⟨i, h1⟩ ⟨j, hjs⟩ hlt
    · have hij2 : j = i := Nat.le_antisymm hge hij
      subst hij2
      exact le_refl _
  have hjn : j < ps.length := by rw [← sortedPairs_length ps]; exact hjs
  have hfrac : 1 ≤ (ps.length : ℚ) / (((0 + j : ℕ) : ℚ) + 1) := by
    rw [one_le_div (by positivity)]
    have : (0 + j : ℕ) + 1 ≤ ps.length := by omega
    exact_mod_cast this
  calc ((sortedPairs ps).get ⟨i, h1⟩).2
      ≤ ((sortedPairs ps).get ⟨j, hjs⟩).2 := hwv
    _ = ((sortedPairs ps).get ⟨j, hjs⟩).2 * 1 := (mul_one _).symm
    _ ≤ ((sortedPairs ps).get ⟨j, hjs⟩).2 *
          ((ps.length : ℚ) / (((0 + j : ℕ) : ℚ) + 1)) :=
        mul_le_mul_of_nonneg_left hfrac hw0
    _ = ((sortedPairs ps).get ⟨j, hjs⟩).2 * (ps.length : ℚ) /
          (((0 + j : ℕ) : ℚ) + 1) := (mul_div_assoc _ _ _).symm

theorem bhCorrected_le (ps : List ℚ)
    (hps : ∀ p ∈ ps, 0 ≤ p ∧ p ≤ 1) (i : ℕ)
    (h1 : i < (sortedPairs ps).length) (h2 : i < (bhCorrected ps).length) :
    (bhCorrected ps).get ⟨i, h2⟩ ≤
      min (((sortedPairs ps).get ⟨i, h1⟩).2 * (ps.length : ℚ)) 1 := by
  have hvmem : ((sortedPairs ps).get ⟨i, h1⟩).2 ∈ ps :=
    sortedPairs_snd_mem (List.get_mem _ _ _)
  obtain ⟨hv0, _⟩ := hps _ hvmem
  have hmd : i < (monoDown (bhRaw ps.length 0 (sortedPairs ps))).length := by
    rw [monoDown_length, bhRaw_length]
    exact h1
  have hraw : i < (bhRaw ps.length 0 (sortedPairs ps)).length := by
    rw [bhRaw_length]
    exact h1
  have hc : (bhCorrected ps).get ⟨i, h2⟩ =
      min ((monoDown (bhRaw ps.length 0 (sortedPairs ps))).get ⟨i, hmd⟩) 1 :=
    get_map_min_one _ i (by unfold bhCorrected at h2; exact h2) hmd
  rw [hc]
  refine min_le_min ?_ (le_refl 1)
  refine le_trans (monoDown_get_le _ i hmd hraw) ?_
  rw [bhRaw_get ps.length 0 (sortedPairs ps) i hraw h1]
  refine div_le_self (by positivity) ?_
  have h0j : (0 : ℚ) ≤ ((0 + i : ℕ) : ℚ) := by positivity
  linarith

/-! ## Claim theorems for the corrections module -/

/-- C1: for every list of p-values each in [0,1] and every correction
method (Bonferroni, Holm-Bonferroni, Benjamini-Hochberg), every returned
record satisfies `corrected_p ≥ original_p` and `corrected_p ≤ 1`, both
fields as reported in the records (after the 6-decimal rounding the
functions apply). -/
theorem corrections_corrected_p_bounds (ps : List ℚ) (alpha : ℚ)
    (hps : ∀ p ∈ ps, 0 ≤ p ∧ p ≤ 1) :
    (∀ r ∈ bonferroni ps alpha,
      r.original_p ≤ r.corrected_p ∧ r.corrected_p ≤ 1) ∧
    (∀ r ∈ holm_bonferroni ps alpha,
      r.original_p ≤ r.corrected_p ∧ r.corrected_p ≤ 1) ∧
    (∀ r ∈ benjamini_hochberg ps alpha,
      r.original_p ≤ r.corrected_p ∧ r.corrected_p ≤ 1) := by
  refine ⟨?_, ?_, ?_⟩
  · intro r hr
    simp only [bonferroni] at hr
    obtain ⟨p, hp, rfl⟩ := List.mem_map.mp hr
    obtain ⟨h0, h1l⟩ := hps p hp
    have hn : 1 ≤ (ps.length : ℚ) := by
      have hpos : 1 ≤ ps.length := List.length_pos.mpr (List.ne_nil_of_mem hp)
      exact_mod_cast hpos
    have hple : p ≤ min (p * (ps.length : ℚ)) 1 := le_min (by nlinarith) h1l
    exact ⟨round6_mono hple, round6_le_one (min_le_right _ _)⟩
  · intro r hr
    unfold holm_bonferroni at hr
    obtain ⟨i, h1, h2, rfl⟩ := mem_corr_output hr
    refine ⟨round6_mono (holmCorrected_ge ps hps i h1 h2), round6_le_one ?_⟩
    exact le_trans (holmCorrected_le ps hps i h1 h2) (min_le_right _ _)
  · intro r hr
    unfold benjamini_hochberg at hr
    obtain ⟨i, h1, h2, rfl⟩ := mem_corr_output hr
    refine ⟨round6_mono (bhCorrected_ge ps hps i h1 h2), round6_le_one ?_⟩
    exact le_trans (bhCorrected_le ps hps i h1 h2) (min_le_right _ _)

/-- Witness for C1 at a concrete input. -/
theorem corrections_corrected_p_bounds_witness :
    (∀ p ∈ ([1/100, 2/100, 55/100] : List ℚ), 0 ≤ p ∧ p ≤ 1) ∧
    ((∀ r ∈ bonferroni [1/100, 2/100, 55/100] (5/100),
      r.original_p ≤ r.corrected_p ∧ r.corrected_p ≤ 1) ∧
    (∀ r ∈ holm_bonferroni [1/100, 2/100, 55/100] (5/100),
      r.original_p ≤ r.corrected_p ∧ r.corrected_p ≤ 1) ∧
    (∀ r ∈ benjamini_hochberg [1/100, 2/100, 55/100] (5/100),
      r.original_p ≤ r.corrected_p ∧ r.corrected_p ≤ 1)) :=
  ⟨by intro p hp; fin_cases hp <;> norm_num,
   corrections_corrected_p_bounds [1/100, 2/100, 55/100] (5/100)
     (by intro p hp; fin_cases hp <;> norm_num)⟩

/-- C3: on every list of p-values in [0,1] and every alpha, Holm-Bonferroni
and Benjamini-Hochberg each flag at least as many records significant as
Bonferroni does. -/
theorem holm_bh_significant_ge_bonferroni (ps : List ℚ) (alpha : ℚ)
    (hps : ∀ p ∈ ps, 0 ≤ p ∧ p ≤ 1) :
    (bonferroni ps alpha).countP (fun r => r.significant) ≤
      (holm_bonferroni ps alpha).countP (fun r => r.significant) ∧
    (bonferroni ps alpha).countP (fun r => r.significant) ≤
      (benjamini_hochberg ps alpha).countP (fun r => r.significant) := by
  have hbonf : (bonferroni ps alpha).countP (fun r => r.significant) =
      (sortedPairs ps).countP
        (fun pr => decide (min (pr.2 * (ps.length : ℚ)) 1 < alpha)) := by
    simp only [bonferroni]
    rw [List.countP_map]
    have hperm := (List.perm_insertionSort byVal (withIdx 0 ps)).countP_eq
      (fun pr => decide (min (pr.2 * (ps.length : ℚ)) 1 < alpha))
    unfold sortedPairs
    rw [hperm, countP_withIdx (fun p => decide (min (p * (ps.length : ℚ)) 1 < alpha))]
    rfl
  constructor
  · rw [hbonf]
    unfold holm_bonferroni
    rw [countP_scatter]
    unfold corrRecords
    apply countP_le_of_get
    · rw [List.length_zipWith, holmCorrected_length, sortedPairs_length]
      simp
    · intro i hi1 hi2 hp
      have hcs : i < (holmCorrected ps).length := by
        rw [List.length_zipWith, lt_min_iff] at hi2
        exact hi2.2
      rw [List.get_zipWith (i := ⟨i, hi2⟩)]
      simp only [decide_eq_true_eq] at hp ⊢
      exact lt_of_le_of_lt (le_trans (holmCorrected_le ps hps i hi1 hcs)
        (le_refl _)) hp
  · rw [hbonf]
    unfold benjamini_hochberg
    rw [countP_scatter]
    unfold corrRecords
    apply countP_le_of_get
    · rw [List.length_zipWith, bhCorrected_length, sortedPairs_length]
      simp
    · intro i hi1 hi2 hp
      have hcs : i < (bhCorrected ps).length := by
        rw [List.length_zipWith, lt_min_iff] at hi2
        exact hi2.2
      rw [List.get_zipWith (i := ⟨i, hi2⟩)]
      simp only [decide_eq_true_eq] at hp ⊢
      exact lt_of_le_of_lt (le_trans (bhCorrected_le ps hps i hi1 hcs)
        (le_refl _)) hp

/-- Witness for C3 at a concrete input. -/
theorem holm_bh_significant_ge_bonferroni_witness :
    (∀ p ∈ ([1/100, 2/100, 55/100] : List ℚ), 0 ≤ p ∧ p ≤ 1) ∧
    ((bonferroni [1/100, 2/100, 55/100] (5/100)).countP (fun r => r.significant) ≤
      (holm_bonferroni [1/100, 2/100, 55/100] (5/100)).countP (fun r => r.significant) ∧
    (bonferroni [1/100, 2/100, 55/100] (5/100)).countP (fun r => r.significant) ≤
      (benjamini_hochberg [1/100, 2/100, 55/100] (5/100)).countP (fun r => r.significant)) :=
  ⟨by intro p hp; fin_cases hp <;> norm_num,
   holm_bh_significant_ge_bonferroni [1/100, 2/100, 55/100] (5/100)
     (by intro p hp; fin_cases hp <;> norm_num)⟩

/-! ## Method dispatch of `apply_correction` -/

/-- C7: `apply_correction` dispatches on the lower-cased method name over
exactly {bonferroni, holm-bonferroni, holm, benjamini-hochberg, bh, fdr};
any method outside that set produces an error naming the unknown method
and listing the valid options, and no result is returned. -/
theorem apply_correction_dispatch (ps : List ℚ) (alpha : ℚ) (method : String) :
    (pyLower method = "bonferroni" →
      apply_correction ps method alpha = .ok (bonferroni ps alpha)) ∧
    ((pyLower method = "holm-bonferroni" ∨ pyLower method = "holm") →
      apply_correction ps method alpha = .ok (holm_bonferroni ps alpha)) ∧
    ((pyLower method = "benjamini-hochberg" ∨ pyLower method = "bh" ∨
        pyLower method = "fdr") →
      apply_correction ps method alpha = .ok (benjamini_hochberg ps alpha)) ∧
    (pyLower method ∉ (["bonferroni", "holm-bonferroni", "holm",
        "benjamini-hochberg", "bh", "fdr"] : List String) →
      apply_correction ps method alpha =
        .error ("Unknown correction method: " ++ method ++
          ". Available: [\x27bonferroni\x27, \x27holm-bonferroni\x27, \x27holm\x27, \x27benjamini-hochberg\x27, \x27bh\x27, \x27fdr\x27]")) := by
  refine ⟨?_, ?_, ?_, ?_⟩
  · intro h
    simp [apply_correction, h]
  · rintro (h | h) <;> simp [apply_correction, h]
  · rintro (h | h | h) <;> simp [apply_correction, h]
  · intro h
    simp only [List.mem_cons, List.not_mem_nil, or_false, not_or] at h
    obtain ⟨h1, h2, h3, h4, h5, h6⟩ := h
    simp [apply_correction, unknownMethodMsg, h1, h2, h3, h4, h5, h6]

/-- Witness for C7: one known method (upper-case spelling of `fdr`) and
one unknown method. -/
theorem apply_correction_dispatch_witness :
    ((pyLower "FDR" = "benjamini-hochberg" ∨ pyLower "FDR" = "bh" ∨
        pyLower "FDR" = "fdr") ∧
      apply_correction [1/2] "FDR" (5/100) =
        .ok (benjamini_hochberg [1/2] (5/100))) ∧
    (pyLower "median" ∉ (["bonferroni", "holm-bonferroni", "holm",
        "benjamini-hochberg", "bh", "fdr"] : List String) ∧
      apply_correction [1/2] "median" (5/100) =
        .error ("Unknown correction method: " ++ "median" ++
          ". Available: [\x27bonferroni\x27, \x27holm-bonferroni\x27, \x27holm\x27, \x27benjamini-hochberg\x27, \x27bh\x27, \x27fdr\x27]")) :=
  ⟨⟨by decide,
    (apply_correction_dispatch [1/2] (5/100) "FDR").2.2.1
      (Or.inr (Or.inr (by decide)))⟩,
   ⟨by decide,
    (apply_correction_dispatch [1/2] (5/100) "median").2.2.2 (by decide)⟩⟩

/-! ## Sequential testing (`sequential.py`)

The scipy special functions `stats.norm.ppf` and `stats.norm.cdf` are not
algebraic; they enter the embedding as explicit function parameters
`ppf cdf : ℝ → ℝ`.  The true quantile satisfies `0 < ppf (1 - alpha / 2)`
for every `alpha ∈ (0, 1)` and takes every positive value as `alpha`
ranges over `(0, 1)`; theorems assume exactly that positivity where the
source relies on it.  The float `inf` returned for a non-positive
information fraction is represented by the junk value 0 — the guard is
never taken for looks `≥ 1`, which is all the claims quantify over. -/

structure SequentialResult where
  current_look : ℕ
  max_looks : ℕ
  spending_function : String
  alpha_spent : ℝ
  boundary_value : ℝ
  z_statistic : ℝ
  decision : String
  cumulative_alpha : ℝ
  boundaries : List ℝ

/-- O'Brien-Fleming alpha spending boundary at a given look. -/
noncomputable def obrien_fleming_boundary (ppf : ℝ → ℝ) (alpha : ℝ)
    (n_looks current_look : ℕ) : ℝ :=
  let info_fraction := (current_look : ℝ) / (n_looks : ℝ)
  if info_fraction ≤ 0 then 0
  else ppf (1 - alpha / 2) / Real.sqrt info_fraction

/-- Pocock (constant) boundary — Bonferroni-like approximation. -/
noncomputable def pocock_boundary (ppf : ℝ → ℝ) (alpha : ℝ)
    (n_looks _current_look : ℕ) : ℝ :=
  ppf (1 - alpha / (n_looks : ℝ) / 2)

/-- O'Brien-Fleming alpha spending function
`2 * (1 - Phi(z_alpha2 / sqrt t))`. -/
noncomputable def alpha_spending_obrien_fleming (ppf cdf : ℝ → ℝ)
    (alpha info_fraction : ℝ) : ℝ :=
  if info_fraction ≤ 0 then 0
  else 2 * (1 - cdf (ppf (1 - alpha / 2) / Real.sqrt info_fraction))

/-- Pocock alpha spending function `alpha * log(1 + (e-1) * t)`. -/
noncomputable def alpha_spending_pocock (alpha info_fraction : ℝ) : ℝ :=
  if info_fraction ≤ 0 then 0
  else alpha * Real.log (1 + (Real.exp 1 - 1) * info_fraction)

/-- Interim analysis check against spending-function boundaries.
`boundaries[current_look - 1]` is modelled with a junk default of 0 for an
out-of-range look (Python would raise `IndexError`; the claims only
quantify over `1 ≤ current_look ≤ max_looks`). -/
noncomputable def interim_analysis (ppf cdf : ℝ → ℝ) (z_stat : ℝ)
    (current_look max_looks : ℕ) (alpha : ℝ) (spending_function : String) :
    SequentialResult :=
  let boundary_fn :=
    if spending_function = "obrien-fleming" then obrien_fleming_boundary ppf
    else pocock_boundary ppf
  let spending_fn :=
    if spending_function = "obrien-fleming" then
      alpha_spending_obrien_fleming ppf cdf
    else alpha_spending_pocock
  let boundaries := (List.range max_looks).map fun look =>
    round4 (boundary_fn alpha max_looks (look + 1))
  let current_boundary := boundaries.getD (current_look - 1) 0
  let info_fraction := (current_look : ℝ) / (max_looks : ℝ)
  let cumulative_alpha := spending_fn alpha info_fraction
  let decision :=
    if |z_stat| ≥ current_boundary then "stop_reject"
    else if current_look = max_looks then
      if |z_stat| ≥ ppf (1 - alpha / 2) then "stop_reject" else "stop_accept"
    else "continue"
  { current_look := current_look
    max_looks := max_looks
    spending_function := spending_function
    alpha_spent := round6 cumulative_alpha
    boundary_value := round4 current_boundary
    z_statistic := round4 z_stat
    decision := decision
    cumulative_alpha := round6 cumulative_alpha
    boundaries := boundaries }

theorem round4_mono {K : Type} [LinearOrderedField K] [FloorRing K]
    {x y : K} (h : x ≤ y) : round4 x ≤ round4 y := by
  unfold round4
  have hm : x * 10000 ≤ y * 10000 :=
    mul_le_mul_of_nonneg_right h (by norm_num)
  have hc : ((roundHalfEven (x * 10000) : ℤ) : K) ≤
      ((roundHalfEven (y * 10000) : ℤ) : K) :=
    Int.cast_le.mpr (roundHalfEven_mono (K := K) hm)
  exact div_le_div_of_nonneg_right hc (by norm_num)

theorem abs_roundHalfEven_sub_le {K : Type} [LinearOrderedField K]
    [FloorRing K] (x : K) : |(roundHalfEven x : K) - x| ≤ 1 / 2 := by
  have hf1 : ((⌊x⌋ : ℤ) : K) ≤ x := Int.floor_le x
  have hf2 : x < ((⌊x⌋ : ℤ) : K) + 1 := Int.lt_floor_add_one x
  unfold roundHalfEven
  split_ifs with h1 h2 h3 <;> rw [abs_le] <;> constructor <;> push_cast <;>
    linarith

theorem abs_round4_sub_le {K : Type} [LinearOrderedField K] [FloorRing K]
    (x : K) : |round4 x - x| ≤ 1 / 2 := by
  have h := abs_roundHalfEven_sub_le (x * 10000)
  unfold round4
  have he : (roundHalfEven (x * 10000) : K) / 10000 - x =
      ((roundHalfEven (x * 10000) : K) - x * 10000) / 10000 := by ring
  rw [he, abs_div, abs_of_pos (by norm_num : (0 : K) < 10000)]
  rw [div_le_iff (by norm_num : (0 : K) < 10000)]
  linarith [abs_nonneg ((roundHalfEven (x * 10000) : K) - x * 10000)]

theorem round4_eq_zero {x : ℝ} (h0 : 0 ≤ x) (h1 : x * 10000 < 1 / 2) :
    round4 x = 0 := by
  unfold round4
  have hf : ⌊x * 10000⌋ = 0 :=
    Int.floor_eq_zero_iff.mpr ⟨by positivity, by linarith⟩
  unfold roundHalfEven
  rw [hf]
  simp only [Int.cast_zero, sub_zero]
  rw [if_pos (by linarith)]
  norm_num

/-- Strict decrease of the unrounded O'Brien-Fleming boundary in the look
index, for a positive critical value. -/
theorem obrien_fleming_boundary_strictAnti (ppf : ℝ → ℝ) (alpha : ℝ)
    (n : ℕ) (hz : 0 < ppf (1 - alpha / 2)) {a b : ℕ} (ha : 1 ≤ a)
    (hab : a < b) (hbn : b ≤ n) :
    obrien_fleming_boundary ppf alpha n b < obrien_fleming_boundary ppf alpha n a := by
  have hn1 : 1 ≤ n := le_trans (by omega) hbn
  have hnpos : (0 : ℝ) < (n : ℝ) := by exact_mod_cast Nat.lt_of_lt_of_le Nat.zero_lt_one hn1
  have hapos : (0 : ℝ) < (a : ℝ) := by exact_mod_cast Nat.lt_of_lt_of_le Nat.zero_lt_one ha
  have hbpos : (0 : ℝ) < (b : ℝ) := by
    have : 0 < b := by omega
    exact_mod_cast this
  have hfa : (0 : ℝ) < (a : ℝ) / (n : ℝ) := div_pos hapos hnpos
  have hfb : (0 : ℝ) < (b : ℝ) / (n : ℝ) := div_pos hbpos hnpos
  unfold obrien_fleming_boundary
  simp only
  rw [if_neg (not_le.mpr hfa), if_neg (not_le.mpr hfb)]
  have hab2 : (a : ℝ) / (n : ℝ) < (b : ℝ) / (n : ℝ) :=
    (div_lt_div_right hnpos).mpr (by exact_mod_cast hab)
  have hs : Real.sqrt ((a : ℝ) / (n : ℝ)) < Real.sqrt ((b : ℝ) / (n : ℝ)) :=
    Real.sqrt_lt_sqrt (le_of_lt hfa) hab2
  have hsa : 0 < Real.sqrt ((a : ℝ) / (n : ℝ)) := Real.sqrt_pos.mpr hfa
  exact div_lt_div_of_pos_left hz hsa hs

/-- C2 (amended): for every positive two-sided critical value
`ppf (1 - alpha/2)` and every `max_looks ≥ 1`, the O'Brien-Fleming
boundary sequence stored by `interim_analysis` is non-increasing in the
look index (the unrounded boundary is strictly decreasing; after the
4-decimal rounding applied to the stored values, adjacent looks can tie),
and the stored boundary at the final look is within 0.5 of the standard
two-sided critical value. -/
theorem obrien_fleming_boundaries_monotone (ppf cdf : ℝ → ℝ) (z alpha : ℝ)
    (look n : ℕ) (hn : 1 ≤ n) (hz : 0 < ppf (1 - alpha / 2)) :
    (∀ i j (hi : i < (interim_analysis ppf cdf z look n alpha
        "obrien-fleming").boundaries.length)
      (hj : j < (interim_analysis ppf cdf z look n alpha
        "obrien-fleming").boundaries.length), i ≤ j →
      (interim_analysis ppf cdf z look n alpha
        "obrien-fleming").boundaries.get ⟨j, hj⟩ ≤
      (interim_analysis ppf cdf z look n alpha
        "obrien-fleming").boundaries.get ⟨i, hi⟩) ∧
    (∀ a b : ℕ, 1 ≤ a → a < b → b ≤ n →
      obrien_fleming_boundary ppf alpha n b <
        obrien_fleming_boundary ppf alpha n a) ∧
    |(interim_analysis ppf cdf z look n alpha
        "obrien-fleming").boundaries.getD (n - 1) 0 -
      ppf (1 - alpha / 2)| ≤ 1 / 2 := by
  have hbs : (interim_analysis ppf cdf z look n alpha
      "obrien-fleming").boundaries =
      (List.range n).map fun lk =>
        round4 (obrien_fleming_boundary ppf alpha n (lk + 1)) := by
    simp [interim_analysis]
  have hlen : (interim_analysis ppf cdf z look n alpha
      "obrien-fleming").boundaries.length = n := by
    rw [hbs]
    simp
  have hget : ∀ i (hi : i < (interim_analysis ppf cdf z look n alpha
      "obrien-fleming").boundaries.length),
      (interim_analysis ppf cdf z look n alpha
        "obrien-fleming").boundaries.get ⟨i, hi⟩ =
        round4 (obrien_fleming_boundary ppf alpha n (i + 1)) := by
    intro i hi
    rw [List.get_of_eq hbs ⟨i, hi⟩]
    simp [List.get_eq_getElem]
  refine ⟨?_, ?_, ?_⟩
  · intro i j hi hj hij
    rw [hget j hj, hget i hi]
    apply round4_mono
    rcases eq_or_lt_of_le hij with rfl | hlt
    · exact le_refl _
    · have hjn : j + 1 ≤ n := by rw [hlen] at hj; omega
      exact le_of_lt (obrien_fleming_boundary_strictAnti ppf alpha n hz
        (by omega) (by omega) hjn)
  · intro a b ha hab hbn
    exact obrien_fleming_boundary_strictAnti ppf alpha n hz ha hab hbn
  · have hn1 : n - 1 < (interim_analysis ppf cdf z look n alpha
        "obrien-fleming").boundaries.length := by rw [hlen]; omega
    have hgd : (interim_analysis ppf cdf z look n alpha
        "obrien-fleming").boundaries.getD (n - 1) 0 =
        (interim_analysis ppf cdf z look n alpha
          "obrien-fleming").boundaries.get ⟨n - 1, hn1⟩ := by
      rw [List.getD_eq_getElem _ _ hn1]
      rfl
    rw [hgd, hget (n - 1) hn1]
    have hfinal : obrien_fleming_boundary ppf alpha n (n - 1 + 1) =
        ppf (1 - alpha / 2) := by
      have hnn : n - 1 + 1 = n := by omega
      rw [hnn]
      unfold obrien_fleming_boundary
      have hnpos : (0 : ℝ) < (n : ℝ) := by
        have : 0 < n := by omega
        exact_mod_cast this
      have hone : (n : ℝ) / (n : ℝ) = 1 := div_self (ne_of_gt hnpos)
      simp only [hone]
      rw [if_neg (by norm_num)]
      rw [Real.sqrt_one, div_one]
    rw [hfinal]
    exact abs_round4_sub_le _

/-- Witness for C2 (amended) at a concrete instance: critical value 2
(the true quantile takes this value at some `alpha ∈ (0,1)`),
`max_looks = 2`. -/
theorem obrien_fleming_boundaries_monotone_witness :
    ((1 : ℕ) ≤ 2 ∧ (0 : ℝ) < (fun _ : ℝ => (2 : ℝ)) (1 - (1/20) / 2)) ∧
    ((∀ i j (hi : i < (interim_analysis (fun _ => 2) (fun _ => 1/2) 0 1 2
        (1/20) "obrien-fleming").boundaries.length)
      (hj : j < (interim_analysis (fun _ => 2) (fun _ => 1/2) 0 1 2
        (1/20) "obrien-fleming").boundaries.length), i ≤ j →
      (interim_analysis (fun _ => 2) (fun _ => 1/2) 0 1 2
        (1/20) "obrien-fleming").boundaries.get ⟨j, hj⟩ ≤
      (interim_analysis (fun _ => 2) (fun _ => 1/2) 0 1 2
        (1/20) "obrien-fleming").boundaries.get ⟨i, hi⟩) ∧
    (∀ a b : ℕ, 1 ≤ a → a < b → b ≤ 2 →
      obrien_fleming_boundary (fun _ => 2) (1/20) 2 b <
        obrien_fleming_boundary (fun _ => 2) (1/20) 2 a) ∧
    |(interim_analysis (fun _ => 2) (fun _ => 1/2) 0 1 2
        (1/20) "obrien-fleming").boundaries.getD (2 - 1) 0 -
      (fun _ : ℝ => (2 : ℝ)) (1 - (1/20) / 2)| ≤ 1 / 2) :=
  ⟨⟨by norm_num, by norm_num⟩,
   obrien_fleming_boundaries_monotone (fun _ => 2) (fun _ => 1/2) 0 (1/20)
     1 2 (by norm_num) (by norm_num)⟩

/-- Counterexample to C2 as stated: with two-sided critical value `10⁻⁵`
(attained by the true normal quantile at `alpha = 2*(1 - Phi(10⁻⁵))`,
which lies in `(0,1)`) and `max_looks = 2`, both stored rounded boundaries
equal 0, so the stored boundary sequence is not strictly decreasing. -/
theorem obrien_fleming_rounded_boundaries_counterexample :
    (interim_analysis (fun _ => 1/100000) (fun _ => 1/2) 0 1 2 (1/2)
      "obrien-fleming").boundaries.getD 0 0 = 0 ∧
    (interim_analysis (fun _ => 1/100000) (fun _ => 1/2) 0 1 2 (1/2)
      "obrien-fleming").boundaries.getD 1 0 = 0 := by
  have hbs : (interim_analysis (fun _ => 1/100000) (fun _ => 1/2) 0 1 2 (1/2)
      "obrien-fleming").boundaries =
      [round4 (obrien_fleming_boundary (fun _ => 1/100000) (1/2) 2 1),
       round4 (obrien_fleming_boundary (fun _ => 1/100000) (1/2) 2 2)] := by
    simp [interim_analysis, List.range_succ]
  have hs2 : (0 : ℝ) < Real.sqrt (1/2) := Real.sqrt_pos.mpr (by norm_num)
  have hslb : (1 : ℝ) / 5 < Real.sqrt (1/2) := by
    have h1 : ((1 : ℝ) / 5) ^ 2 < 1 / 2 := by norm_num
    nlinarith [Real.sq_sqrt (by norm_num : (0:ℝ) ≤ 1/2), hs2]
  have hb1 : obrien_fleming_boundary (fun _ => 1/100000 : ℝ → ℝ) (1/2) 2 1 =
      (1/100000 : ℝ) / Real.sqrt (1/2) := by
    unfold obrien_fleming_boundary
    have hc : ((1 : ℕ) : ℝ) / ((2 : ℕ) : ℝ) = (1 : ℝ) / 2 := by norm_num
    simp only [hc]
    rw [if_neg (by norm_num)]
  have hb2 : obrien_fleming_boundary (fun _ => 1/100000 : ℝ → ℝ) (1/2) 2 2 =
      (1/100000 : ℝ) := by
    unfold obrien_fleming_boundary
    have hc : ((2 : ℕ) : ℝ) / ((2 : ℕ) : ℝ) = (1 : ℝ) := by norm_num
    simp only [hc]
    rw [if_neg (by norm_num), Real.sqrt_one, div_one]
  constructor
  · rw [hbs]
    simp only [List.getD_cons_zero]
    rw [hb1]
    apply round4_eq_zero (by positivity)
    rw [div_mul_eq_mul_div, div_lt_iff hs2]
    nlinarith
  · rw [hbs]
    simp only [List.getD_cons_succ, List.getD_cons_zero]
    rw [hb2]
    apply round4_eq_zero (by norm_num)
    norm_num

/-- C4: for `1 ≤ current_look ≤ max_looks`, `interim_analysis` decides
`stop_reject` when `|z| ≥` the (stored, rounded) boundary at the current
look; otherwise at the final look it compares `|z|` against the standard
two-sided critical value to decide `stop_reject`/`stop_accept`; otherwise
it continues. -/
theorem interim_analysis_decision_rule (ppf cdf : ℝ → ℝ) (z alpha : ℝ)
    (k n : ℕ) (sf : String) (hk1 : 1 ≤ k) (hkn : k ≤ n) :
    (interim_analysis ppf cdf z k n alpha sf).decision =
      if |z| ≥ round4 ((if sf = "obrien-fleming" then
          obrien_fleming_boundary ppf else pocock_boundary ppf) alpha n k)
        then "stop_reject"
      else if k = n then
        if |z| ≥ ppf (1 - alpha / 2) then "stop_reject" else "stop_accept"
      else "continue" := by
  have hlt : k - 1 < ((List.range n).map fun look =>
      round4 ((if sf = "obrien-fleming" then obrien_fleming_boundary ppf
        else pocock_boundary ppf) alpha n (look + 1))).length := by
    simp
    omega
  have hb : (((List.range n).map fun look =>
      round4 ((if sf = "obrien-fleming" then obrien_fleming_boundary ppf
        else pocock_boundary ppf) alpha n (look + 1))).getD (k - 1) 0) =
      round4 ((if sf = "obrien-fleming" then obrien_fleming_boundary ppf
        else pocock_boundary ppf) alpha n k) := by
    rw [List.getD_eq_getElem _ _ hlt, List.getElem_map, List.getElem_range,
      show k - 1 + 1 = k from by omega]
  simp only [interim_analysis]
  rw [hb]

/-- Witness for C4 at a concrete instance. -/
theorem interim_analysis_decision_rule_witness :
    ((1 : ℕ) ≤ 1 ∧ (1 : ℕ) ≤ 2) ∧
    (interim_analysis (fun _ => 2) (fun _ => 1/2) 0 1 2 (1/20)
        "obrien-fleming").decision =
      (if |(0 : ℝ)| ≥ round4 ((if "obrien-fleming" = "obrien-fleming" then
          obrien_fleming_boundary (fun _ => 2) else
          pocock_boundary (fun _ => 2)) (1/20) 2 1)
        then "stop_reject"
      else if (1 : ℕ) = 2 then
        if |(0 : ℝ)| ≥ (fun _ : ℝ => (2 : ℝ)) (1 - (1/20) / 2) then
          "stop_reject" else "stop_accept"
      else "continue") :=
  ⟨⟨le_refl 1, by norm_num⟩,
   interim_analysis_decision_rule (fun _ => 2) (fun _ => 1/2) 0 (1/20) 1 2
     "obrien-fleming" (le_refl 1) (by norm_num)⟩

/-- C6: an unrecognized spending-function name is not rejected;
`interim_analysis` silently follows the Pocock path and returns the same
result as `spending_function = "pocock"` except for the echoed
`spending_function` field. -/
theorem interim_analysis_unknown_spending_pocock (ppf cdf : ℝ → ℝ)
    (z alpha : ℝ) (k n : ℕ) (sf : String) (h : sf ≠ "obrien-fleming") :
    interim_analysis ppf cdf z k n alpha sf =
      { interim_analysis ppf cdf z k n alpha "pocock" with
          spending_function := sf } := by
  simp [interim_analysis, h]

/-- Witness for C6 with the unknown name `wilson`. -/
theorem interim_analysis_unknown_spending_pocock_witness :
    ("wilson" : String) ≠ "obrien-fleming" ∧
    interim_analysis (fun _ => 2) (fun _ => 1/2) 0 1 2 (1/20) "wilson" =
      { interim_analysis (fun _ => 2) (fun _ => 1/2) 0 1 2 (1/20) "pocock" with
          spending_function := "wilson" } :=
  ⟨by decide,
   interim_analysis_unknown_spending_pocock (fun _ => 2) (fun _ => 1/2) 0
     (1/20) 1 2 "wilson" (by decide)⟩

/-! ## Power calculations (`power.py`)

`int(np.ceil(x))` is modelled by `Int.ceil`; the scipy normal quantile is
again an explicit parameter `ppf`. -/

structure PowerResult where
  required_sample_size : ℤ
  required_sample_per_variant : ℤ
  estimated_days : Option ℝ
  power : ℝ
  alpha : ℝ
  mde : ℝ
  baseline_rate : ℝ
  cuped_adjusted_size : Option ℤ
  variance_reduction : Option ℝ

/-- The per-variant sample size expression of `sample_size_proportion`
before `int(np.ceil(...))`. -/
noncomputable def proportion_n (ppf : ℝ → ℝ)
    (baseline_rate mde alpha power : ℝ) (alternative : String) : ℝ :=
  let p1 := baseline_rate
  let p2 := baseline_rate + mde
  let z_alpha := if alternative = "two-sided" then ppf (1 - alpha / 2)
    else ppf (1 - alpha)
  let z_beta := ppf power
  ((z_alpha * Real.sqrt (2 * p1 * (1 - p1)) +
      z_beta * Real.sqrt (p1 * (1 - p1) + p2 * (1 - p2))) / (p2 - p1)) ^ 2

/-- Required sample size per variant for a proportion test. -/
noncomputable def sample_size_proportion (ppf : ℝ → ℝ)
    (baseline_rate mde alpha power : ℝ) (alternative : String) : PowerResult :=
  let n := ⌈proportion_n ppf baseline_rate mde alpha power alternative⌉
  { required_sample_size := n * 2
    required_sample_per_variant := n
    estimated_days := none
    power := power
    alpha := alpha
    mde := mde
    baseline_rate := baseline_rate
    cuped_adjusted_size := none
    variance_reduction := none }

/-- The per-variant sample size expression of `sample_size_mean` before
`int(np.ceil(...))`. -/
noncomputable def mean_n (ppf : ℝ → ℝ)
    (baseline_std mde_absolute alpha power : ℝ) (alternative : String) : ℝ :=
  let z_alpha := if alternative = "two-sided" then ppf (1 - alpha / 2)
    else ppf (1 - alpha)
  let z_beta := ppf power
  2 * ((z_alpha + z_beta) * baseline_std / mde_absolute) ^ 2

/-- Required sample size per variant for a mean test. -/
noncomputable def sample_size_mean (ppf : ℝ → ℝ)
    (baseline_mean baseline_std mde_absolute alpha power : ℝ)
    (alternative : String) : PowerResult :=
  let n := ⌈mean_n ppf baseline_std mde_absolute alpha power alternative⌉
  { required_sample_size := n * 2
    required_sample_per_variant := n
    estimated_days := none
    power := power
    alpha := alpha
    mde := mde_absolute
    baseline_rate := baseline_mean
    cuped_adjusted_size := none
    variance_reduction := none }

/-- Adjust sample size using CUPED variance reduction: scale the
per-variant size by `(1 - variance_reduction)` and round up. -/
noncomputable def adjust_for_cuped (original_result : PowerResult)
    (variance_reduction : ℝ) : PowerResult :=
  let factor := 1 - variance_reduction
  let adjusted_per_variant :=
    ⌈(original_result.required_sample_per_variant : ℝ) * factor⌉
  { required_sample_size := adjusted_per_variant * 2
    required_sample_per_variant := adjusted_per_variant
    estimated_days := none
    power := original_result.power
    alpha := original_result.alpha
    mde := original_result.mde
    baseline_rate := original_result.baseline_rate
    cuped_adjusted_size := some (adjusted_per_variant * 2)
    variance_reduction := some variance_reduction }

/-- C5 (amended): each of the three functions returns
`required_sample_size` equal to exactly twice
`required_sample_per_variant`; the per-variant size is positive whenever
the quantity being rounded up is positive — for `adjust_for_cuped` this
holds when `variance_reduction < 1` and the original per-variant size is
at least 1, but not in general. -/
theorem power_results_double_and_positive (ppf : ℝ → ℝ)
    (br mde bm bs mdeA alpha pw : ℝ) (alt : String) (orig : PowerResult)
    (vr : ℝ)
    (hprop : 0 < proportion_n ppf br mde alpha pw alt)
    (hmean : 0 < mean_n ppf bs mdeA alpha pw alt)
    (hvr : vr < 1) (horig : 1 ≤ orig.required_sample_per_variant) :
    ((sample_size_proportion ppf br mde alpha pw alt).required_sample_size =
        2 * (sample_size_proportion ppf br mde alpha pw
          alt).required_sample_per_variant ∧
      0 < (sample_size_proportion ppf br mde alpha pw
          alt).required_sample_per_variant) ∧
    ((sample_size_mean ppf bm bs mdeA alpha pw alt).required_sample_size =
        2 * (sample_size_mean ppf bm bs mdeA alpha pw
          alt).required_sample_per_variant ∧
      0 < (sample_size_mean ppf bm bs mdeA alpha pw
          alt).required_sample_per_variant) ∧
    ((adjust_for_cuped orig vr).required_sample_size =
        2 * (adjust_for_cuped orig vr).required_sample_per_variant ∧
      0 < (adjust_for_cuped orig vr).required_sample_per_variant) := by
  refine ⟨⟨?_, ?_⟩, ⟨?_, ?_⟩, ⟨?_, ?_⟩⟩
  · simp only [sample_size_proportion]
    ring
  · simp only [sample_size_proportion]
    exact Int.ceil_pos.mpr hprop
  · simp only [sample_size_mean]
    ring
  · simp only [sample_size_mean]
    exact Int.ceil_pos.mpr hmean
  · simp only [adjust_for_cuped]
    ring
  · simp only [adjust_for_cuped]
    apply Int.ceil_pos.mpr
    have h1 : (1 : ℝ) ≤ (orig.required_sample_per_variant : ℝ) := by
      exact_mod_cast horig
    nlinarith

/-- A concrete `PowerResult` used as the original result in the
CUPED-adjustment theorems below. -/
noncomputable def cupedOriginal : PowerResult :=
  { required_sample_size := 200
    required_sample_per_variant := 100
    estimated_days := none
    power := 4/5
    alpha := 1/20
    mde := 1/100
    baseline_rate := 1/10
    cuped_adjusted_size := none
    variance_reduction := none }

/-- Witness for C5 (amended) at a concrete instance. -/
theorem power_results_double_and_positive_witness :
    (0 < proportion_n (fun _ => 1) (1/5) (1/5) (1/20) (4/5) "two-sided" ∧
     0 < mean_n (fun _ => 1) 1 1 (1/20) (4/5) "two-sided" ∧
     (1/2 : ℝ) < 1 ∧
     (1 : ℤ) ≤ cupedOriginal.required_sample_per_variant) ∧
    (((sample_size_proportion (fun _ => 1) (1/5) (1/5) (1/20) (4/5)
          "two-sided").required_sample_size =
        2 * (sample_size_proportion (fun _ => 1) (1/5) (1/5) (1/20) (4/5)
          "two-sided").required_sample_per_variant ∧
      0 < (sample_size_proportion (fun _ => 1) (1/5) (1/5) (1/20) (4/5)
          "two-sided").required_sample_per_variant) ∧
    ((sample_size_mean (fun _ => 1) 0 1 1 (1/20) (4/5)
          "two-sided").required_sample_size =
        2 * (sample_size_mean (fun _ => 1) 0 1 1 (1/20) (4/5)
          "two-sided").required_sample_per_variant ∧
      0 < (sample_size_mean (fun _ => 1) 0 1 1 (1/20) (4/5)
          "two-sided").required_sample_per_variant) ∧
    ((adjust_for_cuped cupedOriginal (1/2)).required_sample_size =
        2 * (adjust_for_cuped cupedOriginal (1/2)).required_sample_per_variant ∧
      0 < (adjust_for_cuped cupedOriginal (1/2)).required_sample_per_variant)) := by
  have hprop : 0 < proportion_n (fun _ => 1) (1/5) (1/5) (1/20) (4/5)
      "two-sided" := by
    unfold proportion_n
    simp only
    have hs1 : (0 : ℝ) < Real.sqrt (2 * (1/5) * (1 - 1/5)) :=
      Real.sqrt_pos.mpr (by norm_num)
    have hs2 : (0 : ℝ) <
        Real.sqrt ((1/5) * (1 - 1/5) + (1/5 + 1/5) * (1 - (1/5 + 1/5))) :=
      Real.sqrt_pos.mpr (by norm_num)
    have hd : (0 : ℝ) < (1/5 + 1/5) - 1/5 := by norm_num
    positivity
  have hmean : 0 < mean_n (fun _ => 1) 1 1 (1/20) (4/5) "two-sided" := by
    unfold mean_n
    norm_num
  have horig : (1 : ℤ) ≤ cupedOriginal.required_sample_per_variant := by
    unfold cupedOriginal
    norm_num
  exact ⟨⟨hprop, hmean, by norm_num, horig⟩,
    power_results_double_and_positive (fun _ => 1) (1/5) (1/5) 0 1 1 (1/20)
      (4/5) "two-sided" cupedOriginal (1/2) hprop hmean (by norm_num) horig⟩

/-- Counterexample to C5 as stated: `adjust_for_cuped` accepts
`variance_reduction = 1` and then returns a zero (non-positive)
per-variant sample size. -/
theorem adjust_for_cuped_counterexample :
    (adjust_for_cuped cupedOriginal 1).required_sample_per_variant = 0 := by
  simp only [adjust_for_cuped, cupedOriginal]
  norm_num

/-! ## Frequentist tests (`frequentist.py`)

`stats.norm.cdf/ppf` enter as parameters `cdf ppf : ℝ → ℝ`; the Student-t
distribution functions take the statistic and the degrees of freedom, so
they enter as `tcdf tppf : ℝ → ℝ → ℝ`.  Significance uses the classical
order on ℝ inside a noncomputable definition, mirroring
`bool(p_value < alpha)`. -/

structure FrequentistResult where
  test_name : String
  statistic : ℝ
  p_value : ℝ
  significant : Bool
  confidence_level : ℝ
  control_mean : ℝ
  treatment_mean : ℝ
  absolute_effect : ℝ
  relative_effect : ℝ
  ci_lower : ℝ
  ci_upper : ℝ
  effect_size : Option ℝ

/-- The pooled standard error of `two_proportion_z_test`. -/
noncomputable def pooled_se (control_conversions control_total
    treatment_conversions treatment_total : ℕ) : ℝ :=
  let p_pool := ((control_conversions : ℝ) + (treatment_conversions : ℝ)) /
    ((control_total : ℝ) + (treatment_total : ℝ))
  Real.sqrt (p_pool * (1 - p_pool) *
    (1 / (control_total : ℝ) + 1 / (treatment_total : ℝ)))

/-- Two-proportion z-test for conversion metrics. -/
noncomputable def two_proportion_z_test (cdf ppf : ℝ → ℝ)
    (control_conversions control_total treatment_conversions
      treatment_total : ℕ) (alpha : ℝ) (alternative : String) :
    FrequentistResult :=
  let p_c := (control_conversions : ℝ) / (control_total : ℝ)
  let p_t := (treatment_conversions : ℝ) / (treatment_total : ℝ)
  let se := pooled_se control_conversions control_total
    treatment_conversions treatment_total
  let z := if se > 0 then (p_t - p_c) / se else 0
  let p_value := if alternative = "two-sided" then 2 * (1 - cdf |z|)
    else if alternative = "greater" then 1 - cdf z
    else cdf z
  let se_diff := Real.sqrt (p_c * (1 - p_c) / (control_total : ℝ) +
    p_t * (1 - p_t) / (treatment_total : ℝ))
  let z_crit := ppf (1 - alpha / 2)
  let h := 2 * (Real.arcsin (Real.sqrt p_t) - Real.arcsin (Real.sqrt p_c))
  let absolute_effect := p_t - p_c
  let relative_effect := if p_c > 0 then absolute_effect / p_c else 0
  { test_name := "Two-Proportion Z-Test"
    statistic := round4 z
    p_value := round6 p_value
    significant := if p_value < alpha then true else false
    confidence_level := 1 - alpha
    control_mean := round6 p_c
    treatment_mean := round6 p_t
    absolute_effect := round6 absolute_effect
    relative_effect := round4 relative_effect
    ci_lower := round6 ((p_t - p_c) - z_crit * se_diff)
    ci_upper := round6 ((p_t - p_c) + z_crit * se_diff)
    effect_size := some (round4 h) }

/-- Sample mean (`np.ndarray.mean`). -/
noncomputable def listMean (xs : List ℝ) : ℝ := xs.sum / (xs.length : ℝ)

/-- Sample variance with `ddof=1` (`np.ndarray.var(ddof=1)`). -/
noncomputable def listVarSample (xs : List ℝ) : ℝ :=
  (xs.map fun x => (x - listMean xs) ^ 2).sum / ((xs.length : ℝ) - 1)

/-- The standard error of `welch_t_test`. -/
noncomputable def welch_se (control_values treatment_values : List ℝ) : ℝ :=
  Real.sqrt (listVarSample control_values / (control_values.length : ℝ) +
    listVarSample treatment_values / (treatment_values.length : ℝ))

/-- Welch t-test for continuous metrics. -/
noncomputable def welch_t_test (tcdf tppf : ℝ → ℝ → ℝ)
    (control_values treatment_values : List ℝ) (alpha : ℝ)
    (alternative : String) : FrequentistResult :=
  let n_c := (control_values.length : ℝ)
  let n_t := (treatment_values.length : ℝ)
  let mean_c := listMean control_values
  let mean_t := listMean treatment_values
  let var_c := listVarSample control_values
  let var_t := listVarSample treatment_values
  let se := welch_se control_values treatment_values
  let t_stat := if se > 0 then (mean_t - mean_c) / se else 0
  let num := (var_c / n_c + var_t / n_t) ^ 2
  let denom := (var_c / n_c) ^ 2 / (n_c - 1) + (var_t / n_t) ^ 2 / (n_t - 1)
  let df := if denom > 0 then num / denom else 1
  let p_value := if alternative = "two-sided" then 2 * (1 - tcdf |t_stat| df)
    else if alternative = "greater" then 1 - tcdf t_stat df
    else tcdf t_stat df
  let t_crit := tppf (1 - alpha / 2) df
  let pooled_std := Real.sqrt (((n_c - 1) * var_c + (n_t - 1) * var_t) /
    (n_c + n_t - 2))
  let d := if pooled_std > 0 then (mean_t - mean_c) / pooled_std else 0
  let absolute_effect := mean_t - mean_c
  let relative_effect := if mean_c ≠ 0 then absolute_effect / mean_c else 0
  { test_name := "Welch\x27s T-Test"
    statistic := round4 t_stat
    p_value := round6 p_value
    significant := if p_value < alpha then true else false
    confidence_level := 1 - alpha
    control_mean := round4 mean_c
    treatment_mean := round4 mean_t
    absolute_effect := round4 absolute_effect
    relative_effect := round4 relative_effect
    ci_lower := round4 ((mean_t - mean_c) - t_crit * se)
    ci_upper := round4 ((mean_t - mean_c) + t_crit * se)
    effect_size := some (round4 d) }

theorem round4_zero {K : Type} [LinearOrderedField K] [FloorRing K] :
    round4 (0 : K) = 0 := by
  unfold round4
  have h : ((0 : K) * 10000) = ((0 : ℤ) : K) := by norm_num
  rw [h, roundHalfEven_intCast]
  norm_num

/-- C9: a zero pooled standard error in `two_proportion_z_test`, and a
zero standard error in `welch_t_test`, give a reported statistic of 0;
the embedding is total, mirroring that the source returns a normal record
instead of raising. -/
theorem se_zero_gives_zero_statistic (cdf ppf : ℝ → ℝ)
    (tcdf tppf : ℝ → ℝ → ℝ) (cc ct tc tt : ℕ) (cvals tvals : List ℝ)
    (alpha : ℝ) (alt : String)
    (hz : pooled_se cc ct tc tt = 0) (hw : welch_se cvals tvals = 0) :
    (two_proportion_z_test cdf ppf cc ct tc tt alpha alt).statistic = 0 ∧
    (welch_t_test tcdf tppf cvals tvals alpha alt).statistic = 0 := by
  constructor
  · simp only [two_proportion_z_test, hz]
    rw [if_neg (by norm_num)]
    exact round4_zero
  · simp only [welch_t_test, hw]
    rw [if_neg (by norm_num)]
    exact round4_zero

/-- Witness for C9: both arms converting 0 of 10, and two constant-value
sample lists. -/
theorem se_zero_gives_zero_statistic_witness :
    (pooled_se 0 10 0 10 = 0 ∧ welch_se [1, 1] [2, 2] = 0) ∧
    ((two_proportion_z_test (fun _ => 1/2) (fun _ => 2) 0 10 0 10 (1/20)
        "two-sided").statistic = 0 ∧
     (welch_t_test (fun _ _ => 1/2) (fun _ _ => 2) [1, 1] [2, 2] (1/20)
        "two-sided").statistic = 0) := by
  have hz : pooled_se 0 10 0 10 = 0 := by
    unfold pooled_se
    norm_num
  have hw : welch_se [1, 1] [2, 2] = 0 := by
    unfold welch_se listVarSample listMean
    norm_num [Real.sqrt_eq_zero]
  exact ⟨⟨hz, hw⟩,
    se_zero_gives_zero_statistic (fun _ => 1/2) (fun _ => 2)
      (fun _ _ => 1/2) (fun _ _ => 2) 0 10 0 10 [1, 1] [2, 2] (1/20)
      "two-sided" hz hw⟩

/-- C10: with a zero control proportion (`control_conversions = 0`) the
z-test reports `relative_effect = 0`, and with a zero control mean the
Welch t-test reports `relative_effect = 0` — a defined fallback, not a
division error. -/
theorem zero_control_relative_effect_zero (cdf ppf : ℝ → ℝ)
    (tcdf tppf : ℝ → ℝ → ℝ) (ct tc tt : ℕ) (cvals tvals : List ℝ)
    (alpha : ℝ) (alt : String) (hmean : listMean cvals = 0) :
    (two_proportion_z_test cdf ppf 0 ct tc tt alpha alt).relative_effect = 0 ∧
    (welch_t_test tcdf tppf cvals tvals alpha alt).relative_effect = 0 := by
  constructor
  · simp only [two_proportion_z_test, Nat.cast_zero, zero_div]
    rw [if_neg (by norm_num)]
    exact round4_zero
  · simp only [welch_t_test, hmean]
    rw [if_neg (by norm_num)]
    exact round4_zero

/-- Witness for C10 at a concrete input. -/
theorem zero_control_relative_effect_zero_witness :
    listMean [-1, 1] = 0 ∧
    ((two_proportion_z_test (fun _ => 1/2) (fun _ => 2) 0 10 5 10 (1/20)
        "two-sided").relative_effect = 0 ∧
     (welch_t_test (fun _ _ => 1/2) (fun _ _ => 2) [-1, 1] [1, 3] (1/20)
        "two-sided").relative_effect = 0) := by
  have hmean : listMean [-1, 1] = 0 := by
    unfold listMean
    norm_num
  exact ⟨hmean,
    zero_control_relative_effect_zero (fun _ => 1/2) (fun _ => 2)
      (fun _ _ => 1/2) (fun _ _ => 2) 10 5 10 [-1, 1] [1, 3] (1/20)
      "two-sided" hmean⟩

/-! ## Bayesian engine (`bayesian.py`)

The numpy generator is abstracted: `σ` is the generator state,
`default_rng : ℕ → σ` models `np.random.default_rng(seed)`, and the
samplers draw a batch and return the advanced state, so the source
pattern — one generator created from the fixed seed 42, used for the
control batch and then the treatment batch — is threaded explicitly.
`normalSample` takes the posterior mean and variance (the source passes
the standard deviation `sqrt(var)`; the square root is absorbed into the
abstract sampler).  The `globalState` argument stands for the process-wide
numpy random state: the source never touches it, and the determinism
theorem below proves the result does not depend on it.  Float `inf` for a
zero loss denominator is modelled by `Option.none`. -/

structure BayesianResult where
  prob_treatment_better : ℚ
  expected_lift : ℚ
  hdi_lower : ℚ
  hdi_upper : ℚ
  expected_loss_control : ℚ
  expected_loss_treatment : ℚ
  risk_ratio : Option ℚ
  rope_decision : String
  rope_prob_in : ℚ
  rope_prob_below : ℚ
  rope_prob_above : ℚ
  posterior_samples : Option (List ℚ)
  deriving DecidableEq, Repr

/-- Mean of a list of rationals (`np.mean`). -/
def qMean (xs : List ℚ) : ℚ := xs.sum / (xs.length : ℚ)

/-- Model of `np.percentile` with the default linear interpolation. -/
def percentile (xs : List ℚ) (q : ℚ) : ℚ :=
  let sorted := List.insertionSort (fun a b : ℚ => a ≤ b) xs
  let n := sorted.length
  if n = 0 then 0
  else
    let rank := q / 100 * ((n : ℚ) - 1)
    let vlo := sorted.getD ⌊rank⌋.toNat 0
    let vhi := sorted.getD ⌈rank⌉.toNat 0
    vlo + (vhi - vlo) * (rank - (⌊rank⌋ : ℚ))

/-- Analytic Beta-Binomial model for conversion rates. -/
def beta_binomial {σ : Type} (default_rng : ℕ → σ)
    (betaSample : σ → ℚ → ℚ → ℕ → List ℚ × σ) (_globalState : σ)
    (control_conversions control_total treatment_conversions
      treatment_total : ℕ) (prior_alpha prior_beta : ℚ) (n_samples : ℕ)
    (credible_interval rope_lower rope_upper : ℚ) : BayesianResult :=
  let alpha_c := prior_alpha + (control_conversions : ℚ)
  let beta_c := prior_beta + ((control_total : ℚ) - (control_conversions : ℚ))
  let alpha_t := prior_alpha + (treatment_conversions : ℚ)
  let beta_t := prior_beta +
    ((treatment_total : ℚ) - (treatment_conversions : ℚ))
  let rng := default_rng 42
  let drawc := betaSample rng alpha_c beta_c n_samples
  let samples_c := drawc.1
  let drawt := betaSample drawc.2 alpha_t beta_t n_samples
  let samples_t := drawt.1
  let lift_samples := List.zipWith (fun t c => (t - c) / c) samples_t samples_c
  let prob_better := qMean (List.zipWith
    (fun t c => if c < t then (1 : ℚ) else 0) samples_t samples_c)
  let expected_lift := qMean lift_samples
  let tail := (1 - credible_interval) / 2
  let hdi_lower := percentile lift_samples (tail * 100)
  let hdi_upper := percentile lift_samples ((1 - tail) * 100)
  let loss_treatment := qMean (List.zipWith
    (fun c t => max (c - t) 0) samples_c samples_t)
  let loss_control := qMean (List.zipWith
    (fun t c => max (t - c) 0) samples_t samples_c)
  let risk_ratio := if 0 < loss_control then
    some (loss_treatment / loss_control) else none
  let diff_samples := List.zipWith (fun t c => t - c) samples_t samples_c
  let prob_in_rope := qMean (diff_samples.map fun d =>
    if rope_lower ≤ d ∧ d ≤ rope_upper then (1 : ℚ) else 0)
  let prob_below_rope := qMean (diff_samples.map fun d =>
    if d < rope_lower then (1 : ℚ) else 0)
  let prob_above_rope := qMean (diff_samples.map fun d =>
    if rope_upper < d then (1 : ℚ) else 0)
  let rope_decision := if 95/100 < prob_above_rope then "reject"
    else if 95/100 < prob_in_rope then "accept" else "undecided"
  { prob_treatment_better := round4 prob_better
    expected_lift := round4 expected_lift
    hdi_lower := round4 hdi_lower
    hdi_upper := round4 hdi_upper
    expected_loss_control := round6 loss_control
    expected_loss_treatment := round6 loss_treatment
    risk_ratio := risk_ratio.map round4
    rope_decision := rope_decision
    rope_prob_in := round4 prob_in_rope
    rope_prob_below := round4 prob_below_rope
    rope_prob_above := round4 prob_above_rope
    posterior_samples := some lift_samples }

/-- Common computation of `_compute_bayesian_result`: lift is normalized
by `|c|` and undefined (non-finite) values — those with `c = 0` — are
discarded before averaging; the HDI is taken on the raw differences. -/
def compute_bayesian_result (samples_c samples_t : List ℚ)
    (credible_interval rope_lower rope_upper : ℚ) : BayesianResult :=
  let diff_samples := List.zipWith (fun t c => t - c) samples_t samples_c
  let lift_samples := ((List.zip samples_t samples_c).filter
    (fun p => decide (p.2 ≠ 0))).map fun p => (p.1 - p.2) / |p.2|
  let prob_better := qMean (List.zipWith
    (fun t c => if c < t then (1 : ℚ) else 0) samples_t samples_c)
  let expected_lift := if lift_samples.length = 0 then 0
    else qMean lift_samples
  let tail := (1 - credible_interval) / 2
  let hdi_lower := percentile diff_samples (tail * 100)
  let hdi_upper := percentile diff_samples ((1 - tail) * 100)
  let loss_treatment := qMean (List.zipWith
    (fun c t => max (c - t) 0) samples_c samples_t)
  let loss_control := qMean (List.zipWith
    (fun t c => max (t - c) 0) samples_t samples_c)
  let risk_ratio := if 0 < loss_control then
    some (loss_treatment / loss_control) else none
  let prob_in_rope := qMean (diff_samples.map fun d =>
    if rope_lower ≤ d ∧ d ≤ rope_upper then (1 : ℚ) else 0)
  let prob_below := qMean (diff_samples.map fun d =>
    if d < rope_lower then (1 : ℚ) else 0)
  let prob_above := qMean (diff_samples.map fun d =>
    if rope_upper < d then (1 : ℚ) else 0)
  let rope_decision := if 95/100 < prob_above then "reject"
    else if 95/100 < prob_in_rope then "accept" else "undecided"
  { prob_treatment_better := round4 prob_better
    expected_lift := round4 expected_lift
    hdi_lower := round4 hdi_lower
    hdi_upper := round4 hdi_upper
    expected_loss_control := round6 loss_control
    expected_loss_treatment := round6 loss_treatment
    risk_ratio := risk_ratio.map round4
    rope_decision := rope_decision
    rope_prob_in := round4 prob_in_rope
    rope_prob_below := round4 prob_below
    rope_prob_above := round4 prob_above
    posterior_samples := none }

/-- Rational sample mean and `ddof=1` variance of the input values. -/
def qVarSample (xs : List ℚ) : ℚ :=
  (xs.map fun x => (x - qMean xs) ^ 2).sum / ((xs.length : ℚ) - 1)

/-- Normal-Normal model for revenue metrics.  `use_mcmc = true` takes the
PyMC path, which is outside the analytic embedding and enters as the
opaque argument `mcmcResult`; the claims below only concern
`use_mcmc = false`. -/
def normal_normal {σ : Type} (default_rng : ℕ → σ)
    (normalSample : σ → ℚ → ℚ → ℕ → List ℚ × σ) (_globalState : σ)
    (control_values treatment_values : List ℚ) (prior_mu prior_sigma : ℚ)
    (n_samples : ℕ) (credible_interval rope_lower rope_upper : ℚ)
    (use_mcmc : Bool) (mcmcResult : BayesianResult) : BayesianResult :=
  if use_mcmc then mcmcResult
  else
    let n_c := (control_values.length : ℚ)
    let n_t := (treatment_values.length : ℚ)
    let mean_c := qMean control_values
    let mean_t := qMean treatment_values
    let var_c := qVarSample control_values
    let var_t := qVarSample treatment_values
    let prior_prec := 1 / prior_sigma ^ 2
    let post_prec_c := prior_prec + n_c / var_c
    let post_prec_t := prior_prec + n_t / var_t
    let post_var_c := 1 / post_prec_c
    let post_var_t := 1 / post_prec_t
    let post_mean_c := post_var_c * (prior_prec * prior_mu + n_c * mean_c / var_c)
    let post_mean_t := post_var_t * (prior_prec * prior_mu + n_t * mean_t / var_t)
    let rng := default_rng 42
    let drawc := normalSample rng post_mean_c post_var_c n_samples
    let drawt := normalSample drawc.2 post_mean_t post_var_t n_samples
    compute_bayesian_result drawc.1 drawt.1
      credible_interval rope_lower rope_upper

/-- C8: `beta_binomial` and the analytic (`use_mcmc = false`) path of
`normal_normal` are deterministic — the Monte Carlo generator is created
inside each call from the fixed seed 42, so the result is independent of
the ambient (global) random state, and two calls with identical argument
values return records identical in every field. -/
theorem bayesian_deterministic_seed {σ : Type} (default_rng : ℕ → σ)
    (betaSample normalSample : σ → ℚ → ℚ → ℕ → List ℚ × σ) (g1 g2 : σ)
    (cc ct tc tt : ℕ) (prior_alpha prior_beta : ℚ) (n_samples : ℕ)
    (ci rl ru : ℚ) (cvals tvals : List ℚ) (pmu psigma : ℚ)
    (ci2 rl2 ru2 : ℚ) (mcmc : BayesianResult) :
    beta_binomial default_rng betaSample g1 cc ct tc tt prior_alpha
        prior_beta n_samples ci rl ru =
      beta_binomial default_rng betaSample g2 cc ct tc tt prior_alpha
        prior_beta n_samples ci rl ru ∧
    normal_normal default_rng normalSample g1 cvals tvals pmu psigma
        n_samples ci2 rl2 ru2 false mcmc =
      normal_normal default_rng normalSample g2 cvals tvals pmu psigma
        n_samples ci2 rl2 ru2 false mcmc :=
  ⟨rfl, rfl⟩
